import Mathlib

/-!
Verification of the hierarchical domain aggregation and reporting engine of a
HAR (HTTP Archive) analyser written in Rust.  The entry point `src/main.rs` is
embedded directly; the bodies of the `ops` module (`count_urls`,
`search_for`, ...) are not part of the sources, so those definitions are
modelled from the design document, while every key closure, call argument and
control-flow decision visible in `main.rs` is translated verbatim.
-/

/-- A node of the domain tree (`count_urls::DomainNode`).  Modelled from the
spec: a visit `count` and a mapping from child label to child node; the mapping
is embedded as an association list whose order stands for the (arbitrary)
iteration order of the underlying hash map. -/
structure DomainNode where
  count : Nat
  children : List (String × DomainNode)

/-- `DomainNode::default()`: zero count, no children (main.rs line 132). -/
def defaultNode : DomainNode := ⟨0, []⟩

/-- Look a label up in a children mapping (first matching key). -/
def lookupChild (l : String) : List (String × DomainNode) → Option DomainNode
  | [] => none
  | (k, c) :: rest => if k = l then some c else lookupChild l rest

/-- Apply `f` to the child stored under label `l`, inserting `f defaultNode`
when the label is absent. -/
def updateChild (f : DomainNode → DomainNode) (l : String) :
    List (String × DomainNode) → List (String × DomainNode)
  | [] => [(l, f defaultNode)]
  | (k, c) :: rest =>
    if k = l then (k, f c) :: rest else (k, c) :: updateChild f l rest

/-- Modelled from the spec: insertion of one canonical label path, incrementing
`count` on every node visited along the path, root included (spec section 4.2;
the body of `count_urls::build_domain_tree` is not under the sources). -/
def insertPath : List String → DomainNode → DomainNode
  | [], n => { n with count := n.count + 1 }
  | l :: ls, n =>
    { count := n.count + 1, children := updateChild (insertPath ls) l n.children }

/-- The count stored at the node reached by following `q` from `n`;
`none` when no such node exists. -/
def countAt : List String → DomainNode → Option Nat
  | [], n => some n.count
  | l :: ls, n =>
    match lookupChild l n.children with
    | some c => countAt ls c
    | none => none

/-- Modelled from the spec: a hostname as seen by the canonicalizer, either
decomposed into public suffix labels (top-level first), registrable
second-level label and remaining subdomain labels (nearest-to-root first), or
a malformed raw host (empty, unparseable, IP literal). -/
inductive Host where
  | wellformed (suffix : List String) (sld : String) (subs : List String)
  | malformed (raw : String)
deriving DecidableEq

/-- Whether a host is well-formed. -/
def isWF : Host → Bool
  | .wellformed _ _ _ => true
  | .malformed _ => false

/-- Modelled from the spec: the policy for a hostname that fails
canonicalization — either skipped or inserted as one opaque label
(spec section 4.1 leaves the choice open). -/
inductive MalformedPolicy where
  | skip
  | opaque_label
deriving DecidableEq

/-- The fused label used when `merge_tld` is set: the registrable second-level
label joined with the textual public suffix, e.g. `example` + `com` gives
`example.com` (spec section 4.1). -/
def fusedLabel (suffix : List String) (sld : String) : String :=
  sld ++ "." ++ String.intercalate "." suffix.reverse

/-- Modelled from the spec: canonicalize a host into the ordered label path
inserted into the tree (top-level domain first); `none` means the entry is
dropped.  With `mergeTld` the suffix and second-level labels become a single
fused label. -/
def canonLabels (mergeTld : Bool) (pol : MalformedPolicy) : Host → Option (List String)
  | .wellformed suffix sld subs =>
    if mergeTld then some (fusedLabel suffix sld :: subs)
    else some (suffix ++ sld :: subs)
  | .malformed raw =>
    match pol with
    | .skip => none
    | .opaque_label => some [raw]

/-- One step of the builder: canonicalize and insert, skipping dropped hosts. -/
def buildStep (mergeTld : Bool) (pol : MalformedPolicy) (t : DomainNode) (u : Host) :
    DomainNode :=
  match canonLabels mergeTld pol u with
  | some p => insertPath p t
  | none => t

/-- Modelled from the spec: `count_urls::build_domain_tree` — one pass over the
request hosts, inserting each canonical label path into the tree held by the
caller (main.rs lines 133-138). -/
def build_domain_tree (mergeTld : Bool) (pol : MalformedPolicy) (urls : List Host)
    (t : DomainNode) : DomainNode :=
  urls.foldl (buildStep mergeTld pol) t

/-- Whether host `u` contributes to the count of the node at path `q`:
its canonical path passes through (or terminates at) that node. -/
def hitsAt (mergeTld : Bool) (pol : MalformedPolicy) (q : List String) (u : Host) : Bool :=
  match canonLabels mergeTld pol u with
  | some p => decide (q <+: p)
  | none => false

/-- Number of hosts of `urls` whose canonical path passes through `q`. -/
def hitCount (mergeTld : Bool) (pol : MalformedPolicy) (q : List String)
    (urls : List Host) : Nat :=
  (urls.filter (hitsAt mergeTld pol q)).length

example : countAt ["com"] (insertPath ["com", "example"] defaultNode) = some 1 := by decide
example : countAt [] (build_domain_tree false .skip
    [.wellformed ["com"] "example" ["a"], .wellformed ["com"] "example" []]
    defaultNode) = some 2 := by decide
example : countAt ["com", "example"] (build_domain_tree false .skip
    [.wellformed ["com"] "example" ["a"], .wellformed ["com"] "example" []]
    defaultNode) = some 2 := by decide
example : countAt ["example.com"] (build_domain_tree true .skip
    [.wellformed ["com"] "example" ["a"]] defaultNode) = some 1 := by decide

/-- Code points of a string's characters.  UTF-8 byte-wise comparison (Rust's
`Ord` on `String`) coincides with code-point lexicographic comparison, so a
label comparison is embedded as a lexicographic comparison of these lists. -/
def charNats (s : String) : List Nat := s.data.map Char.toNat

/-- Strict lexicographic order on lists of naturals. -/
def natLexLt : List Nat → List Nat → Bool
  | _, [] => false
  | [], _ :: _ => true
  | a :: as, b :: bs =>
    if a < b then true else if b < a then false else natLexLt as bs

theorem natLexLt_asymm :
    ∀ l₁ l₂ : List Nat, natLexLt l₁ l₂ = true → natLexLt l₂ l₁ = false := by
  intro l₁
  induction l₁ with
  | nil => intro l₂ h; cases l₂ <;> simp [natLexLt] at h ⊢
  | cons a as ih =>
    intro l₂ h
    cases l₂ with
    | nil => simp [natLexLt] at h
    | cons b bs =>
      simp only [natLexLt] at h ⊢
      split_ifs at h ⊢ <;> first | rfl | omega | exact ih bs h

theorem natLexLt_linear :
    ∀ l₁ l₂ l₃ : List Nat, natLexLt l₁ l₃ = true →
      natLexLt l₁ l₂ = true ∨ natLexLt l₂ l₃ = true := by
  intro l₁
  induction l₁ with
  | nil =>
    intro l₂ l₃ h
    cases l₃ with
    | nil => simp [natLexLt] at h
    | cons c cs => cases l₂ <;> simp [natLexLt]
  | cons a as ih =>
    intro l₂ l₃ h
    cases l₃ with
    | nil => simp [natLexLt] at h
    | cons c cs =>
      cases l₂ with
      | nil => right; simp [natLexLt]
      | cons b bs =>
        simp only [natLexLt] at h ⊢
        split_ifs at h ⊢ <;>
          first | (left; rfl) | (right; rfl) | omega |
            (rcases ih bs cs h with h' | h' <;> simp_all)

/-- Rust's `String` ordering (`name.to_string()` key in main.rs line 142):
byte-wise, embedded as the reflexive closure of code-point lexicographic
comparison. -/
def strLe (a b : String) : Bool := !(natLexLt (charNats b) (charNats a))

theorem strLe_total (a b : String) : strLe a b = true ∨ strLe b a = true := by
  unfold strLe
  rcases h : natLexLt (charNats b) (charNats a) with _ | _
  · left; rfl
  · right; simp [natLexLt_asymm _ _ h]

theorem strLe_trans {a b c : String} (h₁ : strLe a b = true) (h₂ : strLe b c = true) :
    strLe a c = true := by
  unfold strLe at h₁ h₂ ⊢
  rcases h : natLexLt (charNats c) (charNats a) with _ | _
  · rfl
  · rcases natLexLt_linear _ (charNats b) _ h with h' | h' <;> simp_all


/-- Stable insertion into a sorted list: `x` moves past `y` only when `y` is
strictly before it, so elements comparing equal keep their original relative
order — the behaviour of Rust's stable `sort_by_key`. -/
def insertSorted {α : Type} (le : α → α → Bool) (x : α) : List α → List α
  | [] => [x]
  | y :: ys => if le y x && !le x y then y :: insertSorted le x ys else x :: y :: ys

/-- Modelled from the spec: the renderer orders each node's children with the
key closure supplied by `main` (spec section 4.3); embedded as a stable sort
over the iteration order of the children mapping. -/
def stableSortBy {α : Type} (le : α → α → Bool) : List α → List α
  | [] => []
  | x :: xs => insertSorted le x (stableSortBy le xs)

theorem insertSorted_perm {α : Type} (le : α → α → Bool) (x : α) :
    ∀ l : List α, (insertSorted le x l).Perm (x :: l)
  | [] => List.Perm.refl _
  | y :: ys => by
    unfold insertSorted
    split_ifs
    · exact ((insertSorted_perm le x ys).cons y).trans (List.Perm.swap x y ys)
    · exact List.Perm.refl _

theorem stableSortBy_perm {α : Type} (le : α → α → Bool) :
    ∀ l : List α, (stableSortBy le l).Perm l
  | [] => List.Perm.refl _
  | x :: xs =>
    (insertSorted_perm le x (stableSortBy le xs)).trans ((stableSortBy_perm le xs).cons x)

theorem mem_stableSortBy {α : Type} {le : α → α → Bool} {l : List α} {x : α}
    (h : x ∈ stableSortBy le l) : x ∈ l :=
  (stableSortBy_perm le l).mem_iff.mp h

theorem pairwise_insertSorted {α : Type} {le : α → α → Bool}
    (htot : ∀ a b, le a b = true ∨ le b a = true)
    (htr : ∀ {a b c}, le a b = true → le b c = true → le a c = true)
    (x : α) :
    ∀ l : List α, l.Pairwise (fun a b => le a b = true) →
      (insertSorted le x l).Pairwise (fun a b => le a b = true) := by
  intro l
  induction l with
  | nil => intro; simp [insertSorted]
  | cons y ys ih =>
    intro h
    rcases List.pairwise_cons.mp h with ⟨hy, hys⟩
    unfold insertSorted
    split_ifs with hc
    · refine List.pairwise_cons.mpr ⟨?_, ih hys⟩
      intro z hz
      rcases List.mem_cons.mp ((insertSorted_perm le x ys).mem_iff.mp hz) with hz | hz
      · subst hz
        exact (Bool.and_eq_true _ _ ▸ hc).1
      · exact hy z hz
    · have hxy : le x y = true := by
        cases hle : le x y with
        | true => rfl
        | false =>
          rcases htot x y with h' | h'
          · rw [hle] at h'
            exact absurd h' (by simp)
          · exact absurd (by simp [h', hle]) hc
      refine List.pairwise_cons.mpr ⟨?_, h⟩
      intro z hz
      rcases List.mem_cons.mp hz with hz | hz
      · subst hz; exact hxy
      · exact htr hxy (hy z hz)

theorem pairwise_stableSortBy {α : Type} {le : α → α → Bool}
    (htot : ∀ a b, le a b = true ∨ le b a = true)
    (htr : ∀ {a b c}, le a b = true → le b c = true → le a c = true) :
    ∀ l : List α, (stableSortBy le l).Pairwise (fun a b => le a b = true)
  | [] => List.Pairwise.nil
  | x :: xs =>
    pairwise_insertSorted htot htr x _ (pairwise_stableSortBy htot htr xs)

/-- `chainOK ok l` checks `ok` on every pair of adjacent elements of `l`: the
printed sequence "forms a non-increasing / non-decreasing sequence" claims. -/
def chainOK {α : Type} (ok : α → α → Bool) : List α → Bool
  | [] => true
  | [_] => true
  | a :: b :: rest => ok a b && chainOK ok (b :: rest)

theorem chainOK_of_pairwise {α : Type} {ok : α → α → Bool} :
    ∀ {l : List α}, l.Pairwise (fun a b => ok a b = true) → chainOK ok l = true
  | [], _ => rfl
  | [_], _ => rfl
  | a :: b :: rest, h => by
    rcases List.pairwise_cons.mp h with ⟨ha, hrest⟩
    have : chainOK ok (b :: rest) = true := chainOK_of_pairwise hrest
    simp [chainOK, this, ha b (List.mem_cons_self b rest)]

/-- The sort strategy selector of main.rs (`SortBy`). -/
inductive SortBy where
  | Alpha
  | Frequency

/-- The sort key closures passed by main.rs to `count_urls::print_tree`:
`Alpha` sorts by the label (`|(name, _)| name.to_string()`, line 142) and
`Frequency` by descending count (`|(_, node)| Reverse(node.count)`, line 145).
Embedded as the total preorders those keys induce. -/
def childLe : SortBy → (String × DomainNode) → (String × DomainNode) → Bool
  | .Alpha, a, b => strLe a.1 b.1
  | .Frequency, a, b => Nat.ble b.2.count a.2.count

theorem childLe_total (s : SortBy) (a b : String × DomainNode) :
    childLe s a b = true ∨ childLe s b a = true := by
  cases s
  · exact strLe_total a.1 b.1
  · simp only [childLe, Nat.ble_eq]
    omega

theorem childLe_trans (s : SortBy) {a b c : String × DomainNode}
    (h₁ : childLe s a b = true) (h₂ : childLe s b c = true) :
    childLe s a c = true := by
  cases s
  · exact strLe_trans h₁ h₂
  · simp only [childLe, Nat.ble_eq] at h₁ h₂ ⊢
    omega

/-- The order in which the renderer prints the direct children of a node. -/
def sortChildren (s : SortBy) (cs : List (String × DomainNode)) :
    List (String × DomainNode) :=
  stableSortBy (childLe s) cs

theorem mem_of_mem_sortChildren {s : SortBy} {cs : List (String × DomainNode)}
    {x : String × DomainNode} (h : x ∈ sortChildren s cs) : x ∈ cs :=
  mem_stableSortBy h

theorem sizeOf_lt_of_child {l : String} {c : DomainNode} (n : DomainNode)
    (h : (l, c) ∈ n.children) : sizeOf c < sizeOf n := by
  cases n with
  | mk cnt cs =>
    have h1 : sizeOf (l, c) < sizeOf cs := List.sizeOf_lt_of_mem h
    simp only [Prod.mk.sizeOf_spec, DomainNode.mk.sizeOf_spec] at h1 ⊢
    omega

/-- One printed line: indentation proportional to depth, then the label and
its count.  Modelled from the spec (section 4.3); the exact formatting of
`count_urls::print_tree` is not under the sources. -/
def fmtLine (depth : Nat) (label : String) (count : Nat) : String :=
  String.mk (List.replicate (2 * depth) ' ') ++ label ++ " (" ++ toString count ++ ")"

/-- Modelled from the spec: `count_urls::print_tree` — at every node order the
direct children with the key closure, then emit each child's line followed by
its recursively printed subtree (spec section 4.3).  The root itself is not
printed. -/
def print_tree (s : SortBy) (depth : Nat) (n : DomainNode) : List String :=
  (sortChildren s n.children).attach.flatMap
    (fun p => fmtLine depth p.1.1 p.1.2.count :: print_tree s (depth + 1) p.1.2)
termination_by sizeOf n
decreasing_by
  exact sizeOf_lt_of_child n (mem_of_mem_sortChildren p.2)

/-- One invocation of the renderer on a tree: the printed lines together with
the tree the caller still holds afterwards.  main.rs line 142/145 passes the
tree by shared reference (`&domain_tree`), so the call cannot replace it; the
spec additionally fixes that rendering never mutates the tree. -/
def renderCall (t : DomainNode) (s : SortBy) : List String × DomainNode :=
  (print_tree s 0 t, t)

/-- A sequence of renderer invocations with possibly different strategies,
each one reading the tree left behind by the previous one. -/
def renderMany (t : DomainNode) : List SortBy → List (List String) × DomainNode
  | [] => ([], t)
  | s :: rest =>
    let r := renderCall t s
    let rs := renderMany r.2 rest
    (r.1 :: rs.1, rs.2)

example : (sortChildren .Frequency [("b", ⟨1, []⟩), ("a", ⟨1, []⟩)]).map Prod.fst
    = ["b", "a"] := by decide
example : (sortChildren .Frequency [("b", ⟨1, []⟩), ("a", ⟨2, []⟩)]).map Prod.fst
    = ["a", "b"] := by decide
example : (sortChildren .Alpha [("b", ⟨1, []⟩), ("B", ⟨2, []⟩), ("a", ⟨3, []⟩)]).map Prod.fst
    = ["B", "a", "b"] := by decide

/-- ASCII lower-casing at the code-point level, used to state the
case-insensitive comparison the spec asks of the alphabetical strategy. -/
def lowerNat (n : Nat) : Nat := if 65 ≤ n ∧ n ≤ 90 then n + 32 else n

/-- Lower-cased code points of a label. -/
def lowerData (s : String) : List Nat := (charNats s).map lowerNat

/-- Case-insensitive label comparison as the claim states it: lower-cased
labels compared lexicographically, ties between case-insensitively equal
labels broken by the original label bytes. -/
def ciLe (a b : String) : Bool :=
  natLexLt (lowerData a) (lowerData b) ||
    (decide (lowerData a = lowerData b) && strLe a b)

/-- The adjacent-pair condition claimed for the frequency strategy: counts
non-increasing, and among equal counts labels ascending. -/
def freqTieOk (a b : String × DomainNode) : Bool :=
  Nat.ble b.2.count a.2.count &&
    (!(a.2.count == b.2.count) || strLe a.1 b.1)

/-- Whether a label is free of dots.  Labels produced by splitting a hostname
at dots never contain a dot; a fused `merge_tld` label always does. -/
def noDotB (s : String) : Bool := decide ('.' ∉ s.data)

/-- A host decomposition as the real canonicalizer can actually produce it:
well-formed, with a nonempty public suffix and dot-free labels. -/
def goodHost : Host → Bool
  | .wellformed suffix sld subs =>
    !suffix.isEmpty && suffix.all noDotB && noDotB sld && subs.all noDotB
  | .malformed _ => false

theorem dot_mem_fusedLabel (suffix : List String) (sld : String) :
    '.' ∈ (fusedLabel suffix sld).data := by
  have h : (fusedLabel suffix sld).data
      = sld.data ++ '.' :: (String.intercalate "." suffix.reverse).data := by
    simp [fusedLabel, String.data_append]
  rw [h]
  simp

/-- One search result of `ops::search_for::search_for` (the fields printed by
main.rs lines 171-175 and 181-185). -/
structure SearchResult where
  request_num : Nat
  time : String
  url : String
  method : String
  in_fields : List String

/-- The `{:?}` rendering of the `in_fields` vector (escaping of special
characters inside a field is elided by the model). -/
def debugVec (xs : List String) : String :=
  "[" ++ String.intercalate ", " (xs.map (fun s => "\"" ++ s ++ "\"")) ++ "]"

/-- The two lines printed for one literal match (main.rs lines 171-175). -/
def fmtFound (r : SearchResult) : List String :=
  ["Found in request " ++ toString r.request_num ++ ":",
   "Time: " ++ r.time ++ "\nURL: " ++ r.url ++ "\nMethod: " ++ r.method ++
     "\nIn fields: " ++ debugVec r.in_fields ++ "\n"]

/-- The two lines printed for one base64-encoded match (main.rs lines 181-185). -/
def fmtFoundB64 (r : SearchResult) : List String :=
  ["Found base64 encoded in request " ++ toString r.request_num ++ ":",
   "Time: " ++ r.time ++ "\nURL: " ++ r.url ++ "\nMethod: " ++ r.method ++
     "\nIn fields: " ++ debugVec r.in_fields ++ "\n"]

/-- UTF-8 encoding of one character, as the byte values the base64 engine
consumes from the Rust `String`. -/
def charUtf8 (c : Char) : List Nat :=
  let n := c.toNat
  if n < 128 then [n]
  else if n < 2048 then [192 + n / 64, 128 + n % 64]
  else if n < 65536 then [224 + n / 4096, 128 + (n / 64) % 64, 128 + n % 64]
  else [240 + n / 262144, 128 + (n / 4096) % 64, 128 + (n / 64) % 64, 128 + n % 64]

/-- UTF-8 bytes of a string. -/
def utf8Bytes (s : String) : List Nat := s.data.flatMap charUtf8

/-- The standard base64 alphabet. -/
def b64Alphabet : List Char :=
  "ABCDEFGHIJKLMNOPQRSTUVWXYZabcdefghijklmnopqrstuvwxyz0123456789+/".data

/-- The base64 digit for a 6-bit group. -/
def b64Digit (n : Nat) : Char := b64Alphabet.getD n 'A'

/-- Base64 encoding of a byte sequence, standard alphabet, no padding —
`BASE64_STANDARD_NO_PAD.encode` of main.rs line 178. -/
def b64Chunks : List Nat → List Char
  | a :: b :: c :: rest =>
    b64Digit (a / 4) :: b64Digit (a % 4 * 16 + b / 16) ::
      b64Digit (b % 16 * 4 + c / 64) :: b64Digit (c % 64) :: b64Chunks rest
  | [a, b] => [b64Digit (a / 4), b64Digit (a % 4 * 16 + b / 16), b64Digit (b % 16 * 4)]
  | [a] => [b64Digit (a / 4), b64Digit (a % 4 * 16)]
  | [] => []

/-- Base64 (standard alphabet, no padding) of a string's UTF-8 bytes. -/
def base64NoPad (s : String) : String := String.mk (b64Chunks (utf8Bytes s))

example : base64NoPad "Man" = "TWFu" := by decide
example : base64NoPad "pleasure." = "cGxlYXN1cmUu" := by decide
example : base64NoPad "f" = "Zg" := by decide
example : base64NoPad "fo" = "Zm8" := by decide

/-- The `Commands::SearchFor` arm of main.rs (lines 168-187): search the
parsed capture for the query, print every match, then search it again for the
base64 encoding of the query and print those matches.  The body of
`ops::search_for::search_for` is not under the sources, so it is abstracted
as the function argument; `println!` output is collected as a list. -/
def runSearchForArm {α : Type} (search_for : α → String → List SearchResult)
    (parsed : α) (q : String) : List String :=
  let found := search_for parsed q
  let out := found.foldl (fun acc r => acc ++ fmtFound r) []
  let b64_search_string := base64NoPad q
  let found_b64 := search_for parsed b64_search_string
  found_b64.foldl (fun acc r => acc ++ fmtFoundB64 r) out

/-- The outcome of main's input-acquisition phase (main.rs lines 95-111). -/
inductive InputOutcome where
  | exited (code : Nat) (printed : List String)
  | panicked (msg : String)
  | contents (s : String)
deriving DecidableEq

/-- main.rs lines 95-111: read the file when one is given (panicking when the
read fails), otherwise exit with status 2 when stdin is a terminal, otherwise
read stdin (panicking when that fails).  The file system and stdin are passed
as environments; `none` models a failing read. -/
def acquireContents (file : Option String) (stdinIsTerminal : Bool)
    (readFile : String → Option String) (stdinData : Option String) : InputOutcome :=
  match file with
  | some f =>
    match readFile f with
    | some s => .contents s
    | none => .panicked "Could not read file at {file_name}."
  | none =>
    if stdinIsTerminal then
      .exited 2 ["Please provide a file."]
    else
      match stdinData with
      | some s => .contents s
      | none => .panicked "Couldn't read from stdin."

theorem count_insertPath (p : List String) (t : DomainNode) :
    (insertPath p t).count = t.count + 1 := by
  cases p <;> rfl

theorem countAt_defaultNode (q : List String) :
    countAt q defaultNode = if q = [] then some 0 else none := by
  cases q <;> rfl

theorem lookupChild_updateChild_self (f : DomainNode → DomainNode) (l : String) :
    ∀ cs, lookupChild l (updateChild f l cs)
      = some (f ((lookupChild l cs).getD defaultNode))
  | [] => by simp [updateChild, lookupChild]
  | (k, c) :: rest => by
    by_cases h : k = l
    · subst h
      simp [updateChild, lookupChild]
    · simp [updateChild, lookupChild, h, lookupChild_updateChild_self f l rest]

theorem lookupChild_updateChild_ne (f : DomainNode → DomainNode) {l x : String}
    (h : x ≠ l) :
    ∀ cs, lookupChild x (updateChild f l cs) = lookupChild x cs
  | [] => by simp [updateChild, lookupChild, Ne.symm h]
  | (k, c) :: rest => by
    by_cases hk : k = l
    · subst hk
      simp [updateChild, lookupChild, Ne.symm h]
    · by_cases hx : k = x
      · subst hx
        simp [updateChild, lookupChild, hk]
      · simp [updateChild, lookupChild, hk, hx, lookupChild_updateChild_ne f h rest]

theorem countAt_insertPath :
    ∀ (q p : List String) (t : DomainNode),
      countAt q (insertPath p t) =
        if q <+: p then some ((countAt q t).getD 0 + 1) else countAt q t := by
  intro q
  induction q with
  | nil =>
    intro p t
    simp [countAt, count_insertPath]
  | cons x q' ih =>
    intro p t
    cases p with
    | nil =>
      have hnp : ¬(x :: q' <+: ([] : List String)) := by simp
      simp [insertPath, countAt, hnp]
    | cons y p' =>
      by_cases hxy : x = y
      · subst hxy
        have hpre : (x :: q' <+: x :: p') ↔ (q' <+: p') := by simp
        cases hc : lookupChild x t.children with
        | some c =>
          simp only [insertPath, countAt, lookupChild_updateChild_self, hc,
            Option.getD_some, hpre, ih p' c]
        | none =>
          simp only [insertPath, countAt, lookupChild_updateChild_self, hc,
            Option.getD_none, hpre, ih p' defaultNode]
          by_cases hq : q' <+: p'
          · have hd : (countAt q' defaultNode).getD 0 = 0 := by
              rw [countAt_defaultNode]; split <;> rfl
            simp [hq, hd]
          · have hq' : q' ≠ [] := by
              intro hnil
              exact hq (hnil ▸ List.nil_prefix)
            rw [countAt_defaultNode]
            simp [hq, hq']
      · have hnp : ¬(x :: q' <+: y :: p') := by
          simp [List.cons_prefix_cons, hxy]
        simp only [insertPath, countAt, lookupChild_updateChild_ne _ hxy, hnp,
          if_false]

theorem hitCount_cons (m : Bool) (pol : MalformedPolicy) (q : List String)
    (u : Host) (rest : List Host) :
    hitCount m pol q (u :: rest)
      = (if hitsAt m pol q u then 1 else 0) + hitCount m pol q rest := by
  simp only [hitCount, List.filter_cons]
  split <;> simp [Nat.add_comm]

theorem countAt_build (m : Bool) (pol : MalformedPolicy) :
    ∀ (urls : List Host) (t : DomainNode) (q : List String),
      countAt q (build_domain_tree m pol urls t) =
        match countAt q t with
        | some c => some (c + hitCount m pol q urls)
        | none =>
          if hitCount m pol q urls = 0 then none
          else some (hitCount m pol q urls) := by
  intro urls
  induction urls with
  | nil =>
    intro t q
    have h0 : hitCount m pol q [] = 0 := rfl
    cases hc : countAt q t <;> simp [build_domain_tree, h0, hc]
  | cons u rest ih =>
    intro t q
    have hfold : build_domain_tree m pol (u :: rest) t
        = build_domain_tree m pol rest (buildStep m pol t u) := rfl
    rw [hfold, ih, hitCount_cons]
    cases hcanon : canonLabels m pol u with
    | none =>
      have hstep : buildStep m pol t u = t := by simp [buildStep, hcanon]
      have hhit : hitsAt m pol q u = false := by simp [hitsAt, hcanon]
      rw [hstep, hhit]
      simp
    | some p =>
      have hstep : buildStep m pol t u = insertPath p t := by simp [buildStep, hcanon]
      rw [hstep, countAt_insertPath]
      by_cases hq : q <+: p
      · have hhit : hitsAt m pol q u = true := by simp [hitsAt, hcanon, hq]
        rw [if_pos hq, hhit]
        cases hc : countAt q t with
        | some c =>
          simp only [Option.getD_some, if_true]
          congr 1
          omega
        | none =>
          simp only [Option.getD_none, if_true]
          have : ¬(1 + hitCount m pol q rest = 0) := by omega
          simp [this]
      · have hhit : hitsAt m pol q u = false := by simp [hitsAt, hcanon, hq]
        rw [if_neg hq, hhit]
        simp

theorem length_filter_mono {α : Type} (p r : α → Bool)
    (h : ∀ a, p a = true → r a = true) :
    ∀ l : List α, (l.filter p).length ≤ (l.filter r).length := by
  intro l
  induction l with
  | nil => simp
  | cons a l ih =>
    simp only [List.filter_cons]
    cases hp : p a with
    | true =>
      rw [h a hp]
      simp
      omega
    | false =>
      cases hr : r a <;> simp <;> omega

theorem hitCount_root (m : Bool) (pol : MalformedPolicy) (urls : List Host)
    (hwf : ∀ u ∈ urls, isWF u = true) :
    hitCount m pol [] urls = urls.length := by
  unfold hitCount
  rw [List.filter_eq_self.mpr]
  intro u hu
  have h := hwf u hu
  cases u with
  | wellformed s sl ss => cases m <;> simp [hitsAt, canonLabels, List.nil_prefix]
  | malformed r => simp [isWF] at h

theorem exists_hit_of_countAt_some {m : Bool} {pol : MalformedPolicy}
    {urls : List Host} {q : List String} {c : Nat} (hq : q ≠ [])
    (h : countAt q (build_domain_tree m pol urls defaultNode) = some c) :
    ∃ u ∈ urls, hitsAt m pol q u = true := by
  have hb := countAt_build m pol urls defaultNode q
  rw [countAt_defaultNode, if_neg hq] at hb
  rw [hb] at h
  by_cases h0 : hitCount m pol q urls = 0
  · rw [if_pos h0] at h
    cases h
  · have hpos : 0 < (urls.filter (hitsAt m pol q)).length := Nat.pos_of_ne_zero h0
    obtain ⟨u, hu⟩ := List.exists_mem_of_length_pos hpos
    exact ⟨u, (List.mem_filter.mp hu).1, (List.mem_filter.mp hu).2⟩

theorem countAt_build_pos {m : Bool} {pol : MalformedPolicy} {urls : List Host}
    {u : Host} {p : List String} (hu : u ∈ urls)
    (hc : canonLabels m pol u = some p) (hp : p ≠ []) :
    ∃ c, countAt p (build_domain_tree m pol urls defaultNode) = some c ∧ 1 ≤ c := by
  have hb := countAt_build m pol urls defaultNode p
  rw [countAt_defaultNode, if_neg hp] at hb
  have hhit : hitsAt m pol p u = true := by
    simp [hitsAt, hc, List.prefix_refl]
  have hmem : u ∈ urls.filter (hitsAt m pol p) := List.mem_filter.mpr ⟨hu, hhit⟩
  have hpos : 0 < hitCount m pol p urls := List.length_pos_of_mem hmem
  rw [if_neg (by omega)] at hb
  exact ⟨hitCount m pol p urls, hb, by omega⟩

theorem build_skip_filter (m : Bool) :
    ∀ (urls : List Host) (t : DomainNode),
      build_domain_tree m .skip urls t
        = build_domain_tree m .skip (urls.filter isWF) t
  | [], _ => rfl
  | u :: rest, t => by
    cases u with
    | wellformed s sl ss =>
      have hf : (Host.wellformed s sl ss :: rest).filter isWF
          = Host.wellformed s sl ss :: rest.filter isWF := by
        simp [List.filter_cons, isWF]
      rw [hf]
      have h1 : build_domain_tree m .skip (Host.wellformed s sl ss :: rest) t
          = build_domain_tree m .skip rest (buildStep m .skip t (.wellformed s sl ss)) := rfl
      have h2 : build_domain_tree m .skip (Host.wellformed s sl ss :: rest.filter isWF) t
          = build_domain_tree m .skip (rest.filter isWF)
              (buildStep m .skip t (.wellformed s sl ss)) := rfl
      rw [h1, h2, build_skip_filter m rest]
    | malformed r =>
      have hf : (Host.malformed r :: rest).filter isWF = rest.filter isWF := by
        simp [List.filter_cons, isWF]
      have h1 : build_domain_tree m .skip (Host.malformed r :: rest) t
          = build_domain_tree m .skip rest t := rfl
      rw [hf, h1, build_skip_filter m rest]

theorem foldl_append_flatMap {α β : Type} (f : α → List β) :
    ∀ (l : List α) (acc : List β),
      l.foldl (fun acc r => acc ++ f r) acc = acc ++ l.flatMap f
  | [], acc => by simp
  | r :: rest, acc => by
    simp only [List.foldl_cons, List.flatMap_cons, foldl_append_flatMap f rest,
      List.append_assoc]

theorem filter_insertSorted_of_pos {α : Type} (le : α → α → Bool) (p : α → Bool)
    (x : α) (hx : p x = true)
    (hskip : ∀ y, (le y x && !le x y) = true → p y = false) :
    ∀ l : List α, (insertSorted le x l).filter p = x :: l.filter p
  | [] => by simp [insertSorted, hx]
  | y :: ys => by
    unfold insertSorted
    split_ifs with hc
    · have hy : p y = false := hskip y hc
      simp [List.filter_cons, hy, filter_insertSorted_of_pos le p x hx hskip ys]
    · simp [List.filter_cons, hx]

theorem filter_insertSorted_of_neg {α : Type} (le : α → α → Bool) (p : α → Bool)
    (x : α) (hx : p x = false) :
    ∀ l : List α, (insertSorted le x l).filter p = l.filter p
  | [] => by simp [insertSorted, hx]
  | y :: ys => by
    unfold insertSorted
    split_ifs with hc
    · simp [List.filter_cons, filter_insertSorted_of_neg le p x hx ys]
    · simp [List.filter_cons, hx]

/-- Stability of the modelled sort: a stable sort never reorders elements the
key function cannot distinguish, so filtering the output to one key class
returns exactly that class's slice of the input, in input order. -/
theorem filter_stableSortBy {α : Type} (le : α → α → Bool) (p : α → Bool)
    (hskip : ∀ x y, p x = true → (le y x && !le x y) = true → p y = false) :
    ∀ l : List α, (stableSortBy le l).filter p = l.filter p
  | [] => rfl
  | x :: xs => by
    unfold stableSortBy
    cases hx : p x with
    | true =>
      rw [filter_insertSorted_of_pos le p x hx (fun y hy => hskip x y hx hy),
        filter_stableSortBy le p hskip xs]
      simp [List.filter_cons, hx]
    | false =>
      rw [filter_insertSorted_of_neg le p x hx,
        filter_stableSortBy le p hskip xs]
      simp [List.filter_cons, hx]

/-- Claim C1, as stated, is false on the code: the frequency key closure of
main.rs line 145 is `Reverse(node.count)` alone, so two children with equal
counts stay in the iteration order of the children mapping.  For the node
whose children mapping yields `b` before `a`, both with count 1, the printed
order is `b`, `a` — not alphabetical. -/
theorem c1_counterexample :
    chainOK freqTieOk
      (sortChildren .Frequency
        (DomainNode.mk 2 [("b", ⟨1, []⟩), ("a", ⟨1, []⟩)]).children) = false := by
  decide

/-- Claim C1 (amended): with the frequency strategy the printed direct
children of every node are a permutation of the children whose counts form a
non-increasing sequence; children with equal counts keep their relative order
from the underlying children mapping (for every count value `k`, the printed
children of count `k` are exactly the mapping's children of count `k`, in the
mapping's order), which need not be alphabetical. -/
theorem c1_frequency_order (n : DomainNode) :
    (sortChildren .Frequency n.children).Perm n.children
    ∧ chainOK (fun a b => Nat.ble b.2.count a.2.count)
        (sortChildren .Frequency n.children) = true
    ∧ ∀ k, (sortChildren .Frequency n.children).filter (fun a => a.2.count == k)
        = n.children.filter (fun a => a.2.count == k) := by
  refine ⟨stableSortBy_perm _ _,
    chainOK_of_pairwise
      (pairwise_stableSortBy (childLe_total .Frequency)
        (fun h₁ h₂ => childLe_trans .Frequency h₁ h₂) n.children), ?_⟩
  intro k
  apply filter_stableSortBy
  intro x y hx hy
  simp only [childLe, Bool.and_eq_true, Bool.not_eq_true'] at hy
  have hxk : x.2.count = k := by simpa using hx
  have h1 : x.2.count ≤ y.2.count := Nat.ble_eq.mp hy.1
  have h2 : ¬ y.2.count ≤ x.2.count := by
    intro hle
    have hb := Nat.ble_eq.mpr hle
    rw [hy.2] at hb
    cases hb
  have hne : y.2.count ≠ k := by omega
  simpa using hne

/-- Claim C2, as stated, is false on the code: the alphabetical key closure of
main.rs line 142 is the raw label (`name.to_string()`), compared byte-wise and
not case-insensitively.  For a node with children `a` and `B` (both
lower-casing distinct), byte order prints `B` before `a`, which descends under
the claimed case-insensitive comparison. -/
theorem c2_counterexample :
    chainOK (fun a b => ciLe a.1 b.1)
      (sortChildren .Alpha
        (DomainNode.mk 2 [("a", ⟨1, []⟩), ("B", ⟨1, []⟩)]).children) = false := by
  decide

/-- Claim C2 (amended): with the alphabetical strategy the printed direct
children of every node are a permutation of the children whose labels form a
non-decreasing sequence under byte-wise (code-point) comparison of the raw
labels; this agrees with case-insensitive order only when the labels are
already case-normalized. -/
theorem c2_alpha_order (n : DomainNode) :
    (sortChildren .Alpha n.children).Perm n.children
    ∧ chainOK (fun a b => strLe a.1 b.1) (sortChildren .Alpha n.children) = true :=
  ⟨stableSortBy_perm _ _,
    chainOK_of_pairwise
      (pairwise_stableSortBy (childLe_total .Alpha)
        (fun h₁ h₂ => childLe_trans .Alpha h₁ h₂) n.children)⟩

/-- Claim C3: with no malformed entry the root's count equals the number of
hostnames, and in every tree produced by the builder each node's count is at
least the count of each of its children. -/
theorem c3_conservation (m : Bool) (pol : MalformedPolicy) (urls : List Host) :
    ((∀ u ∈ urls, isWF u = true) →
      countAt [] (build_domain_tree m pol urls defaultNode) = some urls.length)
    ∧ ∀ q l cc,
        countAt (q ++ [l]) (build_domain_tree m pol urls defaultNode) = some cc →
        ∃ cp, countAt q (build_domain_tree m pol urls defaultNode) = some cp
          ∧ cc ≤ cp := by
  constructor
  · intro hwf
    have hb : countAt [] (build_domain_tree m pol urls defaultNode)
        = some (0 + hitCount m pol [] urls) :=
      countAt_build m pol urls defaultNode []
    rw [hb, hitCount_root m pol urls hwf]
    simp
  · intro q l cc hcc
    have hb := countAt_build m pol urls defaultNode (q ++ [l])
    rw [countAt_defaultNode, if_neg (by simp : ¬(q ++ [l] = []))] at hb
    rw [hb] at hcc
    by_cases h0 : hitCount m pol (q ++ [l]) urls = 0
    · rw [if_pos h0] at hcc
      cases hcc
    · rw [if_neg h0] at hcc
      have hcc' : hitCount m pol (q ++ [l]) urls = cc := Option.some.inj hcc
      have hmono : hitCount m pol (q ++ [l]) urls ≤ hitCount m pol q urls := by
        apply length_filter_mono
        intro u hu
        unfold hitsAt at hu ⊢
        cases hcanon : canonLabels m pol u with
        | none =>
          rw [hcanon] at hu
          have hu' : (false : Bool) = true := hu
          cases hu'
        | some p =>
          rw [hcanon] at hu
          have hu' : decide (q ++ [l] <+: p) = true := hu
          show decide (q <+: p) = true
          exact decide_eq_true ((List.prefix_append q [l]).trans (of_decide_eq_true hu'))
      have hbq := countAt_build m pol urls defaultNode q
      rw [countAt_defaultNode] at hbq
      by_cases hqnil : q = []
      · rw [if_pos hqnil] at hbq
        exact ⟨0 + hitCount m pol q urls, hbq, by omega⟩
      · rw [if_neg hqnil] at hbq
        rw [if_neg (by omega : ¬ hitCount m pol q urls = 0)] at hbq
        exact ⟨hitCount m pol q urls, hbq, by omega⟩

theorem c3_witness :
    countAt [] (build_domain_tree false .skip
        [Host.wellformed ["com"] "example" ["a"]] defaultNode) = some 1
    ∧ ∃ cp, countAt ["com"] (build_domain_tree false .skip
        [Host.wellformed ["com"] "example" ["a"]] defaultNode) = some cp
        ∧ 1 ≤ cp := by
  have h := c3_conservation false .skip [Host.wellformed ["com"] "example" ["a"]]
  exact ⟨h.1 (by decide), h.2 ["com"] "example" 1 (by decide)⟩

/-- Fusing a host's top-level and registrable second-level labels into a
single label: the canonical path of `u` with `merge_tld=true` is exactly the
canonical path of `fuseHost u` with `merge_tld=false`; malformed hosts are
untouched. -/
def fuseHost : Host → Host
  | .wellformed suffix sld subs => .wellformed [] (fusedLabel suffix sld) subs
  | .malformed raw => .malformed raw

theorem build_fuse (pol : MalformedPolicy) :
    ∀ (urls : List Host) (t : DomainNode),
      build_domain_tree true pol urls t
        = build_domain_tree false pol (urls.map fuseHost) t
  | [], _ => rfl
  | u :: rest, t => by
    have hstep : buildStep true pol t u = buildStep false pol t (fuseHost u) := by
      cases u with
      | wellformed s sl ss => rfl
      | malformed r => rfl
    have h1 : build_domain_tree true pol (u :: rest) t
        = build_domain_tree true pol rest (buildStep true pol t u) := rfl
    have h2 : build_domain_tree false pol ((u :: rest).map fuseHost) t
        = build_domain_tree false pol (rest.map fuseHost)
            (buildStep false pol t (fuseHost u)) := rfl
    rw [h1, h2, hstep, build_fuse pol rest]

/-- Claim C4, as stated, is false on the code's model: over *every* input
sequence it also covers malformed entries, and with the opaque-label policy a
malformed raw host can collide with a suffix label.  For the input
`example.com` (well-formed) plus the malformed raw host `com`, the path
`["com"]` names a node in both trees, counted 2 in the unmerged tree (the
well-formed path passes through it, the opaque label ends at it) but 1 in the
merged tree (the well-formed path is fused to `example.com`). -/
theorem c4_counterexample :
    countAt ["com"] (build_domain_tree false .opaque_label
        [Host.wellformed ["com"] "example" [], Host.malformed "com"]
        defaultNode) = some 2
    ∧ countAt ["com"] (build_domain_tree true .opaque_label
        [Host.wellformed ["com"] "example" [], Host.malformed "com"]
        defaultNode) = some 1 := by
  decide

/-- Claim C4 (amended): when every entry is well-formed with a nonempty public
suffix and dot-free labels (the canonicalizer's output invariant — labels come
from splitting a hostname at dots), the `merge_tld=true` and `merge_tld=false`
trees give the same count at every node existing in both: a non-root path
exists in the unmerged tree only under a dot-free head label and in the merged
tree only under a fused (dot-containing) head label, so the trees share
exactly the root, which counts all entries in both.  Unconditionally, the two
trees differ only in the fusion: the `merge_tld=true` tree is the
`merge_tld=false` tree of the same URLs with each entry's top-level and
second-level labels fused into a single label. -/
theorem c4_merge_equiv (pol : MalformedPolicy) (urls : List Host) :
    ((∀ u ∈ urls, goodHost u = true) → ∀ (q : List String) (ca cb : Nat),
      countAt q (build_domain_tree false pol urls defaultNode) = some ca →
      countAt q (build_domain_tree true pol urls defaultNode) = some cb →
      ca = cb)
    ∧ build_domain_tree true pol urls defaultNode
        = build_domain_tree false pol (urls.map fuseHost) defaultNode := by
  refine ⟨?_, build_fuse pol urls defaultNode⟩
  intro hgood q ca cb ha hb
  have hwf : ∀ u ∈ urls, isWF u = true := by
    intro u hu
    have hg := hgood u hu
    cases u with
    | wellformed s sl ss => rfl
    | malformed r => simp [goodHost] at hg
  cases q with
  | nil =>
    have ha' : countAt [] (build_domain_tree false pol urls defaultNode)
        = some (0 + hitCount false pol [] urls) :=
      countAt_build false pol urls defaultNode []
    have hb' : countAt [] (build_domain_tree true pol urls defaultNode)
        = some (0 + hitCount true pol [] urls) :=
      countAt_build true pol urls defaultNode []
    rw [ha', hitCount_root false pol urls hwf] at ha
    rw [hb', hitCount_root true pol urls hwf] at hb
    have e1 : 0 + urls.length = ca := Option.some.inj ha
    have e2 : 0 + urls.length = cb := Option.some.inj hb
    omega
  | cons x q' =>
    exfalso
    obtain ⟨u, hu, hhu⟩ := exists_hit_of_countAt_some (by simp) ha
    obtain ⟨v, hv, hhv⟩ := exists_hit_of_countAt_some (by simp) hb
    have hgu := hgood u hu
    have hgv := hgood v hv
    cases u with
    | malformed r => simp [goodHost] at hgu
    | wellformed s sl ss =>
      cases v with
      | malformed r => simp [goodHost] at hgv
      | wellformed s' sl' ss' =>
        unfold hitsAt at hhu hhv
        rw [show canonLabels false pol (Host.wellformed s sl ss)
            = some (s ++ sl :: ss) from rfl] at hhu
        rw [show canonLabels true pol (Host.wellformed s' sl' ss')
            = some (fusedLabel s' sl' :: ss') from rfl] at hhv
        have hpu : x :: q' <+: s ++ sl :: ss := of_decide_eq_true hhu
        have hpv : x :: q' <+: fusedLabel s' sl' :: ss' := of_decide_eq_true hhv
        have hx2 : x = fusedLabel s' sl' := (List.cons_prefix_cons.mp hpv).1
        rcases s with _ | ⟨s0, stl⟩
        · simp [goodHost] at hgu
        · have hpu' : x :: q' <+: s0 :: (stl ++ sl :: ss) := by simpa using hpu
          have hx1 : x = s0 := (List.cons_prefix_cons.mp hpu').1
          simp only [goodHost, Bool.and_eq_true, List.all_eq_true] at hgu
          have hnd : noDotB s0 = true :=
            hgu.1.1.2 s0 (List.mem_cons_self s0 stl)
          have hnodot : '.' ∉ s0.data := of_decide_eq_true hnd
          apply hnodot
          have hs0 : s0 = fusedLabel s' sl' := hx1.symm.trans hx2
          rw [hs0]
          exact dot_mem_fusedLabel s' sl'

theorem c4_witness : (1 : Nat) = 1 :=
  (c4_merge_equiv .skip [Host.wellformed ["com"] "example" []]).1 (by decide) [] 1 1
    (by decide) (by decide)

/-- Claim C5: processing one more hostname increments the count of every node
on its canonical label path, root included, by exactly one (a node absent
before the insertion is created with count one). -/
theorem c5_increment_along_path (m : Bool) (pol : MalformedPolicy)
    (urls : List Host) (u : Host) (p q : List String)
    (hc : canonLabels m pol u = some p) (hq : q <+: p) :
    countAt q (build_domain_tree m pol (urls ++ [u]) defaultNode)
      = some ((countAt q (build_domain_tree m pol urls defaultNode)).getD 0 + 1) := by
  have hsnoc : build_domain_tree m pol (urls ++ [u]) defaultNode
      = buildStep m pol (build_domain_tree m pol urls defaultNode) u := by
    unfold build_domain_tree
    rw [List.foldl_append]
    rfl
  have hstep : buildStep m pol (build_domain_tree m pol urls defaultNode) u
      = insertPath p (build_domain_tree m pol urls defaultNode) := by
    simp [buildStep, hc]
  rw [hsnoc, hstep, countAt_insertPath, if_pos hq]

theorem c5_witness :
    countAt ["com"] (build_domain_tree false .skip
        ([] ++ [Host.wellformed ["com"] "example" []]) defaultNode)
      = some ((countAt ["com"]
          (build_domain_tree false .skip [] defaultNode)).getD 0 + 1) :=
  c5_increment_along_path false .skip [] (Host.wellformed ["com"] "example" [])
    ["com", "example"] ["com"] rfl (by decide)

/-- Claim C6: rendering the same tree twice with the same strategy produces
identical output — the renderer is a function of the tree and the strategy
alone, and the second call sees the unchanged tree the first call returned. -/
theorem c6_sort_determinism (t : DomainNode) (s : SortBy) :
    (renderMany t [s, s]).1 = [print_tree s 0 t, print_tree s 0 t] := rfl

/-- Claim C7: rendering never mutates the tree — after any sequence of render
calls with any strategies the tree is unchanged, and every call produced
exactly what it would produce on the freshly built tree. -/
theorem c7_render_frame (t : DomainNode) (strategies : List SortBy) :
    (renderMany t strategies).2 = t
    ∧ (renderMany t strategies).1
        = strategies.map (fun s => print_tree s 0 t) := by
  induction strategies with
  | nil => exact ⟨rfl, rfl⟩
  | cons s rest ih =>
    refine ⟨?_, ?_⟩
    · simpa [renderMany, renderCall] using ih.1
    · simp [renderMany, renderCall, ih.2]

/-- Claim C8: the builder is partial-failure tolerant.  For any input list it
never aborts (the build is a total function of its input); every well-formed
hostname in the list is inserted and its full path counted at least once;
under the skip policy malformed entries change nothing (building is the same
as building from the well-formed sublist); under the opaque policy each
malformed entry is inserted as a single opaque label whose node carries a
positive count. -/
theorem c8_partial_failure (m : Bool) (urls : List Host) :
    (∀ (pol : MalformedPolicy) (u : Host), u ∈ urls → isWF u = true →
      ∃ p c, canonLabels m pol u = some p
        ∧ countAt p (build_domain_tree m pol urls defaultNode) = some c ∧ 1 ≤ c)
    ∧ build_domain_tree m .skip urls defaultNode
        = build_domain_tree m .skip (urls.filter isWF) defaultNode
    ∧ ∀ raw, Host.malformed raw ∈ urls →
        ∃ c, countAt [raw]
            (build_domain_tree m .opaque_label urls defaultNode) = some c
          ∧ 1 ≤ c := by
  refine ⟨?_, build_skip_filter m urls defaultNode, ?_⟩
  · intro pol u hu hwfu
    cases u with
    | malformed r => simp [isWF] at hwfu
    | wellformed s sl ss =>
      cases m with
      | false =>
        have hcanon : canonLabels false pol (Host.wellformed s sl ss)
            = some (s ++ sl :: ss) := rfl
        obtain ⟨c, hc, h1⟩ := countAt_build_pos hu hcanon (by simp)
        exact ⟨s ++ sl :: ss, c, hcanon, hc, h1⟩
      | true =>
        have hcanon : canonLabels true pol (Host.wellformed s sl ss)
            = some (fusedLabel s sl :: ss) := rfl
        obtain ⟨c, hc, h1⟩ := countAt_build_pos hu hcanon (by simp)
        exact ⟨fusedLabel s sl :: ss, c, hcanon, hc, h1⟩
  · intro raw hraw
    have hc : canonLabels m .opaque_label (Host.malformed raw) = some [raw] := rfl
    exact countAt_build_pos hraw hc (by simp)

theorem c8_witness :
    (∃ p c, canonLabels false .skip (Host.wellformed ["com"] "example" []) = some p
      ∧ countAt p (build_domain_tree false .skip
          [Host.wellformed ["com"] "example" [], Host.malformed "??"]
          defaultNode) = some c ∧ 1 ≤ c)
    ∧ ∃ c, countAt ["??"] (build_domain_tree false .opaque_label
        [Host.wellformed ["com"] "example" [], Host.malformed "??"]
        defaultNode) = some c ∧ 1 ≤ c := by
  have h := c8_partial_failure false
    [Host.wellformed ["com"] "example" [], Host.malformed "??"]
  exact ⟨h.1 .skip (Host.wellformed ["com"] "example" []) (by decide) rfl,
    h.2.2 "??" (by decide)⟩

/-- Claim C9: the SearchFor command performs exactly two searches over the
parsed capture — one for the literal query and one for its base64 encoding
(standard alphabet, no padding) — and prints every literal match before any
base64-encoded match. -/
theorem c9_two_searches {α : Type} (search_for : α → String → List SearchResult)
    (parsed : α) (q : String) :
    runSearchForArm search_for parsed q
      = (search_for parsed q).flatMap fmtFound
        ++ (search_for parsed (base64NoPad q)).flatMap fmtFoundB64 := by
  unfold runSearchForArm
  rw [foldl_append_flatMap, foldl_append_flatMap]
  simp

/-- Claim C10: with no file argument and a terminal on standard input, main
prints "Please provide a file." and exits with status 2; the outcome does not
depend on the file system or on any stdin contents, so nothing is read and no
tree is built. -/
theorem c10_no_file_terminal
    (readFile readFile' : String → Option String)
    (stdinData stdinData' : Option String) :
    acquireContents none true readFile stdinData
        = InputOutcome.exited 2 ["Please provide a file."]
    ∧ acquireContents none true readFile stdinData
        = acquireContents none true readFile' stdinData' :=
  ⟨rfl, rfl⟩
